import Mathlib

/-!
Shallow embedding of the curation core of the weekly-playlist-generator
repository, and proofs checking the natural-language specification's claims
against it.

Modelling conventions:
  * Python strings are modelled as `List Char` (`Str`); `str.lower()` is
    modelled for the ASCII range by `lowerStr`, Python's substring test
    `p in s` by `isSub p s`, and Python's lexicographic string order
    (restricted to the code-point comparison that `sorted` uses) by `strLe`.
  * Python `datetime` values are modelled as integer seconds; `timedelta.days`
    is floor division by 86400 and Python's `//` is `Int.fdiv` (both floor).
    The source calls `datetime.now()` twice inside `apply_retention`
    (once for the cutoff, once for stamping); the two calls are microseconds
    apart and the spec treats them as one instant, so the embedding takes a
    single `now` parameter.
  * A Python `dict` is modelled as an insertion-ordered association list;
    dict key iteration order is insertion order, which `keyOrderBy` captures.
  * Timestamps persisted in `state.json` are modelled as well-formed integers;
    the `except ValueError` branches of `StateManager.apply_retention`, which
    only concern unparsable persisted text, are outside the model.
-/

/-! ## Text model (Python str operations used by the core) -/

/-- A Python string, modelled as its list of characters. -/
abbrev Str := List Char

/-- ASCII model of `str.lower()` on one character. -/
def lowerChar (c : Char) : Char :=
  if 65 ≤ c.toNat ∧ c.toNat ≤ 90 then Char.ofNat (c.toNat + 32) else c

/-- ASCII model of `str.lower()`. -/
def lowerStr (s : Str) : Str := s.map lowerChar

/-- Model of Python's substring test `p in s`. -/
def isSub (p : Str) : Str → Bool
  | [] => p.isEmpty
  | c :: rest => p.isPrefixOf (c :: rest) || isSub p rest

/-- Code-point lexicographic order on strings, the order `sorted()` uses. -/
def strLe : Str → Str → Bool
  | [], _ => true
  | _ :: _, [] => false
  | a :: as, b :: bs => if a = b then strLe as bs else decide (a.toNat < b.toNat)

/-- The code-point order as a relation, for `List.insertionSort`. -/
def strLeR (a b : Str) : Prop := strLe a b = true

instance : DecidableRel strLeR := fun a b =>
  inferInstanceAs (Decidable (strLe a b = true))

/-- Whitespace-stripping, modelling `str.strip()` (used only by the
spec-side matching definition, see `specAdmit`). -/
def trimStr (s : Str) : Str :=
  ((s.dropWhile Char.isWhitespace).reverse.dropWhile Char.isWhitespace).reverse

/-- Insertion-order list of the distinct keys of a list, i.e. the key
iteration order of a Python dict built by appending each element to
`d[key(x)]`. -/
def keyOrderBy {α : Type} {κ : Type} [DecidableEq κ] (key : α → κ)
    (l : List α) : List κ :=
  l.foldl (fun acc x => if key x ∈ acc then acc else acc ++ [key x]) []

/-! ## Data model (src/models) -/

/-- `ScrapedRelease` from src/models/release.py. -/
structure ScrapedRelease where
  artist : Str
  title : Str
  source : Str
  release_type : Str
  url : Str
  scraped_date : Str
  genres : List Str
  location : Option Str
deriving DecidableEq, Repr

/-- `PlaylistItem` from src/models/playlist_item.py.  `__post_init__`
guarantees `sources` is non-empty (defaulting to `[source]`); the embedding
keeps `sources` an explicit field as the dataclass does. -/
structure PlaylistItem where
  artist : Str
  track : Str
  album : Str
  spotify_uri : Str
  source : Str
  scraped_date : Str
  sources : List Str
  weeks_in_playlist : Int
deriving DecidableEq, Repr

/-! ## GenreFilter (src/filters/genre_filter.py) -/

/-- `GenreFilter` state: the constructor lowercases both pattern lists
(`self.include` / `self.exclude`; renamed because `include` is a Lean
keyword). -/
structure GenreFilter where
  includeList : List Str
  excludeList : List Str
deriving DecidableEq, Repr

/-- `GenreFilter.__init__(include_genres, exclude_genres)`. -/
def GenreFilter.init (include_genres exclude_genres : List Str) : GenreFilter :=
  ⟨include_genres.map lowerStr, exclude_genres.map lowerStr⟩

/-- The source's substring match in either direction:
`excluded in genre or genre in excluded` (both already lowercased). -/
def eitherSub (a b : Str) : Bool := isSub a b || isSub b a

/-- `GenreFilter._should_include`, line for line: exclusion loop, empty-tag
acceptance, inclusion loop, the `>= 3` rejection, then acceptance. -/
def should_include (f : GenreFilter) (release : ScrapedRelease) : Bool :=
  let release_genres := release.genres.map lowerStr
  if release_genres.any (fun g => f.excludeList.any (fun e => eitherSub e g)) then
    false
  else if release_genres.isEmpty then
    true
  else if release_genres.any (fun g => f.includeList.any (fun i => eitherSub i g)) then
    true
  else if 3 ≤ release_genres.length then
    false
  else
    true

/-- `GenreFilter.filter`. -/
def GenreFilter.run (f : GenreFilter) (releases : List ScrapedRelease) :
    List ScrapedRelease :=
  releases.filter (fun r => should_include f r)

/-- Spec-side admission decision, written from the spec's words for claim C8:
"case-insensitive, trimmed, substring-in-either-direction matching" with the
five-step first-match-wins order.  Compared against `should_include`. -/
def specAdmit (tags includeL excludeL : List Str) : Bool :=
  let m : Str → Str → Bool := fun t p =>
    eitherSub (trimStr (lowerStr p)) (trimStr (lowerStr t))
  if tags.any (fun t => excludeL.any (fun p => m t p)) then false
  else if tags.isEmpty then true
  else if tags.any (fun t => includeL.any (fun p => m t p)) then true
  else if 3 ≤ tags.length then false
  else true

/-- Spec-side admission decision with the trimming removed (the amended
claim C8): case-insensitive substring-in-either-direction matching only. -/
def specAdmitNoTrim (tags includeL excludeL : List Str) : Bool :=
  let m : Str → Str → Bool := fun t p =>
    eitherSub (lowerStr p) (lowerStr t)
  if tags.any (fun t => excludeL.any (fun p => m t p)) then false
  else if tags.isEmpty then true
  else if tags.any (fun t => includeL.any (fun p => m t p)) then true
  else if 3 ≤ tags.length then false
  else true

/-! ## Deduplicator (src/filters/deduplication.py) -/

/-- The sorted deduplicated union of the members' `sources`, i.e.
`sorted(list(all_sources))` where `all_sources` is the Python set built by
`_merge_items` (every item's `sources` is a `List[str]`, so only the
`update` branch of the `isinstance` test is reachable in the model). -/
def sortedSourceUnion (l : List PlaylistItem) : List Str :=
  List.insertionSort strLeR ((l.flatMap (fun i => i.sources)).dedup)

/-- `Deduplicator._merge_items`: a singleton group is returned as is
(`if len(items) == 1: return items[0]`); a larger group copies the first
element and replaces its `sources` by the sorted union.  The Python code
indexes `items[0]` and would fail on an empty group, which the pipeline never
produces; the embedding returns `none` there. -/
def merge_items : List PlaylistItem → Option PlaylistItem
  | [] => none
  | [i] => some i
  | i :: rest => some { i with sources := sortedSourceUnion (i :: rest) }

/-- The group of items sharing one `spotify_uri`, in input order: the list a
Python `defaultdict(list)` accumulates for that URI. -/
def uriGroup (items : List PlaylistItem) (u : Str) : List PlaylistItem :=
  items.filter (fun i => decide (i.spotify_uri = u))

/-- The unsorted priority list: one merged item per URI whose group has more
than one member, in dict (= first-occurrence) order. -/
def priorityPreSort (items : List PlaylistItem) : List PlaylistItem :=
  ((keyOrderBy (fun i => i.spotify_uri) items).filter
      (fun u => decide (1 < (uriGroup items u).length))).filterMap
    (fun u => merge_items (uriGroup items u))

/-- Descending-by-source-count order used by
`priority_items.sort(key=lambda x: len(x.sources), reverse=True)`. -/
def bySourceCountDesc (a b : PlaylistItem) : Prop :=
  b.sources.length ≤ a.sources.length

instance : DecidableRel bySourceCountDesc := fun a b =>
  inferInstanceAs (Decidable (b.sources.length ≤ a.sources.length))

instance : IsTotal PlaylistItem bySourceCountDesc :=
  ⟨fun a b => Nat.le_total b.sources.length a.sources.length⟩

instance : IsTrans PlaylistItem bySourceCountDesc :=
  ⟨fun _ _ _ h1 h2 => Nat.le_trans h2 h1⟩

/-- `Deduplicator.deduplicate`: groups by URI in first-occurrence order,
merges each group, collects multi-source groups into `priority_items`, and
sorts those by source count descending.  Python's `list.sort` is stable, so
the sort is modelled by insertion sort with the descending relation, which is
the unique stable sort for that key (stability is proved in
`insertionSort_filter_key`). -/
def deduplicate (items : List PlaylistItem) :
    List PlaylistItem × List PlaylistItem :=
  let uris := keyOrderBy (fun i => i.spotify_uri) items
  let unique_items := uris.filterMap (fun u => merge_items (uriGroup items u))
  let priority_items := List.insertionSort bySourceCountDesc (priorityPreSort items)
  (priority_items, unique_items)

/-- The grouping key of `Deduplicator.group_by_album`:
`(item.artist.lower(), item.album.lower())`. -/
def albumKey (i : PlaylistItem) : Str × Str := (lowerStr i.artist, lowerStr i.album)

/-- `Deduplicator.group_by_album`: keys in first-appearance order, then the
per-key buckets (which hold their items in input order) are concatenated. -/
def group_by_album (items : List PlaylistItem) : List PlaylistItem :=
  (keyOrderBy albumKey items).flatMap
    (fun k => items.filter (fun i => decide (albumKey i = k)))

/-! ## StateManager (src/state/manager.py) -/

/-- `RETENTION_WEEKS` from src/config.py. -/
def RETENTION_WEEKS : Int := 2

/-- `timedelta(weeks=RETENTION_WEEKS)` in seconds: 14 days. -/
def retentionSeconds : Int := RETENTION_WEEKS * 7 * 86400

/-- The persisted `track_history` map: URI to first-seen timestamp, in
insertion order. -/
abbrev History := List (Str × Int)

/-- First-match association-list lookup (`history[uri]` / `uri in history`;
keys are unique because entries are only appended when absent). -/
def lookupH : History → Str → Option Int
  | [], _ => none
  | (k, v) :: rest, u => if k = u then some v else lookupH rest u

/-- The reserved manual-search placeholder marker `"spotify:search:"`
(`SpotifyMatcher._create_manual_search_item` builds such URIs). -/
def manualMarker : Str := "spotify:search:".data

/-- `uri.startswith("spotify:search:")`. -/
def isManualUri (u : Str) : Bool := manualMarker.isPrefixOf u

/-- The expiry sweep of `apply_retention`: every entry whose timestamp is
strictly before the cutoff is deleted, whether or not its URI occurs among
the incoming items. -/
def purgeExpired (h : History) (cutoff : Int) : History :=
  h.filter (fun p => decide (cutoff ≤ p.2))

/-- `item.weeks_in_playlist = (now - added_date).days // 7`. -/
def weeksIn (now added : Int) : Int := ((now - added).fdiv 86400).fdiv 7

/-- The per-item loop of `apply_retention`.  A manual placeholder passes
through untouched; otherwise an absent URI is first recorded at `now`, and
the item is kept (with its week counter set) exactly when its recorded
timestamp is at or after the cutoff. -/
def retentionLoop (cutoff now : Int) (h : History) :
    List PlaylistItem → History × List PlaylistItem
  | [] => (h, [])
  | item :: rest =>
    if isManualUri item.spotify_uri then
      let r := retentionLoop cutoff now h rest
      (r.1, item :: r.2)
    else
      let h1 : History :=
        match lookupH h item.spotify_uri with
        | none => h ++ [(item.spotify_uri, now)]
        | some _ => h
      let added : Int := (lookupH h1 item.spotify_uri).getD now
      let r := retentionLoop cutoff now h1 rest
      (r.1,
        if cutoff ≤ added then
          { item with weeks_in_playlist := weeksIn now added } :: r.2
        else
          r.2)

/-- `StateManager.apply_retention`: purge, then the item loop.  Returns the
updated `track_history` and the surviving current items. -/
def apply_retention (h : History) (now : Int) (items : List PlaylistItem) :
    History × List PlaylistItem :=
  retentionLoop (now - retentionSeconds) now
    (purgeExpired h (now - retentionSeconds)) items

/-- A sequence of retention calls (one per run), threading the persisted
store. -/
def runRetentionCalls (h : History) (calls : List (Int × List PlaylistItem)) :
    History :=
  calls.foldl (fun acc c => (apply_retention acc c.1 c.2).1) h

/-! ## Selector: the trimming step of main() (src/main.py, phase 6) -/

/-- `priority_uris = {item.spotify_uri for item in priority_items}` —
membership in this set is membership in the list of priority URIs. -/
def priorityUris (priority : List PlaylistItem) : List Str :=
  priority.map (fun i => i.spotify_uri)

/-- `[i for i in current_items if i.spotify_uri in priority_uris]`. -/
def priorityInCurrent (current priority : List PlaylistItem) : List PlaylistItem :=
  current.filter (fun i => decide (i.spotify_uri ∈ priorityUris priority))

/-- `[i for i in current_items if i.spotify_uri not in priority_uris]`. -/
def othersInCurrent (current priority : List PlaylistItem) : List PlaylistItem :=
  current.filter (fun i => decide (i.spotify_uri ∉ priorityUris priority))

/-- The trimming step of `main()` (phase 6), with the target size as a
parameter (the source uses `TARGET_PLAYLIST_SIZE`).  `slots_for_others` is
Python integer arithmetic, hence `Int`. -/
def trim (current priority : List PlaylistItem) (target : Nat) : List PlaylistItem :=
  if current.length ≤ target then current
  else
    let slots_for_others : Int :=
      (target : Int) - (priorityInCurrent current priority).length
    if 0 < slots_for_others then
      priorityInCurrent current priority ++
        (othersInCurrent current priority).take slots_for_others.toNat
    else
      (priorityInCurrent current priority).take target

/-- `TARGET_PLAYLIST_SIZE` from src/config.py. -/
def TARGET_PLAYLIST_SIZE : Nat := 50

/-! ## Pipeline fragment: the genre-filter fallback of main() (phase 2) -/

/-- Phase 2 of `main()`: run the genre filter; if nothing passes, fall back
to the whole unfiltered release list. -/
def effectiveReleases (f : GenreFilter) (all_releases : List ScrapedRelease) :
    List ScrapedRelease :=
  let filtered_releases := f.run all_releases
  if filtered_releases.isEmpty then all_releases else filtered_releases

/-! ## Generic grouping helper and concrete inputs used by the theorems -/

/-- A concrete addressable track URI. -/
def wUri : Str := "spotify:track:a".data

def wItem : PlaylistItem :=
  { artist := "ar".data, track := "tr".data, album := "al".data,
    spotify_uri := wUri, source := "s1".data, scraped_date := "d".data,
    sources := ["s1".data], weeks_in_playlist := 0 }

def wHist : History := [(wUri, 0)]

def wNow : Int := 1209600

/-- A concrete manual-search placeholder item. -/
def wMan : PlaylistItem :=
  { artist := "ar".data, track := "tr".data, album := "".data,
    spotify_uri := "spotify:search:ar%20tr".data, source := "s1".data,
    scraped_date := "d".data, sources := ["s1".data], weeks_in_playlist := 0 }

/-- A concrete release whose single tag is "a edm". -/
def wRel : ScrapedRelease :=
  { artist := "x".data, title := "y".data, source := "s".data,
    release_type := "track".data, url := "u".data, scraped_date := "d".data,
    genres := ["a edm".data], location := none }

/-- A release tagged with an excluded genre. -/
def wEdmRel : ScrapedRelease :=
  { artist := "x".data, title := "y".data, source := "s".data,
    release_type := "track".data, url := "u".data, scraped_date := "d".data,
    genres := ["edm".data], location := none }

/-- Concrete playlist items with distinct URIs, for the trimming witness. -/
def wI1 : PlaylistItem :=
  { wItem with spotify_uri := "spotify:track:u1".data }

def wI2 : PlaylistItem :=
  { wItem with spotify_uri := "spotify:track:u2".data }

def wI3 : PlaylistItem :=
  { wItem with spotify_uri := "spotify:track:u3".data }

/-- The concatenation of per-key buckets in the order of `ks` (the body of
`group_by_album`). -/
def blocksBy {α κ : Type} [DecidableEq κ] (key : α → κ) (ks : List κ)
    (l : List α) : List α :=
  ks.flatMap (fun k => l.filter (fun a => decide (key a = k)))

/-- A singleton group whose sole member has an unsorted sources list. -/
def wSing : PlaylistItem := { wItem with sources := ["b".data, "a".data] }

/-- Two concrete items of one group, with different single sources. -/
def wSrcA : PlaylistItem := { wItem with sources := ["s2".data] }

def wSrcB : PlaylistItem :=
  { wItem with spotify_uri := wItem.spotify_uri, sources := ["s1".data] }

/-! ## Order properties of the string order used by `sorted()` -/

theorem char_toNat_inj {a b : Char} (h : a.toNat = b.toNat) : a = b :=
  Char.ext (UInt32.ext h)

theorem strLe_total : ∀ a b : Str, strLe a b = true ∨ strLe b a = true
  | [], _ => Or.inl rfl
  | _ :: _, [] => Or.inr rfl
  | a :: as, b :: bs => by
    by_cases hab : a = b
    · rcases strLe_total as bs with h | h
      · exact Or.inl (by simp [strLe, hab, h])
      · exact Or.inr (by simp [strLe, hab.symm, h])
    · have hne : a.toNat ≠ b.toNat := fun hc => hab (char_toNat_inj hc)
      rcases Nat.lt_or_ge a.toNat b.toNat with h | h
      · exact Or.inl (by simp [strLe, hab, h])
      · have hlt : b.toNat < a.toNat := Nat.lt_of_le_of_ne h (Ne.symm hne)
        exact Or.inr (by simp [strLe, Ne.symm hab, hlt])

theorem strLe_trans : ∀ a b c : Str,
    strLe a b = true → strLe b c = true → strLe a c = true
  | [], _, _, _, _ => rfl
  | _ :: _, [], _, h, _ => by simp [strLe] at h
  | _ :: _, _ :: _, [], _, h => by simp [strLe] at h
  | a :: as, b :: bs, c :: cs, h1, h2 => by
    by_cases hab : a = b <;> by_cases hbc : b = c
    · subst hab; subst hbc
      simp only [strLe, if_pos rfl] at h1 h2 ⊢
      exact strLe_trans as bs cs h1 h2
    · subst hab
      simpa [strLe, hbc] using h2
    · subst hbc
      simpa [strLe, hab] using h1
    · simp only [strLe, if_neg hab] at h1
      simp only [strLe, if_neg hbc] at h2
      have l1 : a.toNat < b.toNat := by simpa using h1
      have l2 : b.toNat < c.toNat := by simpa using h2
      have lac : a.toNat < c.toNat := Nat.lt_trans l1 l2
      have hac : a ≠ c := fun hc => Nat.lt_irrefl _ (hc ▸ lac : c.toNat < c.toNat)
      simp [strLe, hac, lac]

theorem strLe_antisymm : ∀ a b : Str,
    strLe a b = true → strLe b a = true → a = b
  | [], [], _, _ => rfl
  | [], _ :: _, _, h => by simp [strLe] at h
  | _ :: _, [], h, _ => by simp [strLe] at h
  | a :: as, b :: bs, h1, h2 => by
    by_cases hab : a = b
    · subst hab
      simp only [strLe, if_pos rfl] at h1 h2
      exact congrArg _ (strLe_antisymm as bs h1 h2)
    · simp only [strLe, if_neg hab] at h1
      simp only [strLe, if_neg (Ne.symm hab)] at h2
      have l1 : a.toNat < b.toNat := by simpa using h1
      have l2 : b.toNat < a.toNat := by simpa using h2
      exact absurd (Nat.lt_trans l1 l2) (Nat.lt_irrefl _)

instance : IsTotal Str strLeR := ⟨strLe_total⟩

instance : IsTrans Str strLeR := ⟨strLe_trans⟩

instance : IsAntisymm Str strLeR := ⟨strLe_antisymm⟩

/-! ## Lemmas about the history association list -/

theorem lookupH_append_of_some {h : History} {u : Str} {d : Int}
    (hl : lookupH h u = some d) (l : History) : lookupH (h ++ l) u = some d := by
  induction h with
  | nil => simp [lookupH] at hl
  | cons p rest ih =>
    obtain ⟨k, v⟩ := p
    by_cases hk : k = u
    · simp [lookupH, hk] at hl ⊢; exact hl
    · simp [lookupH, hk] at hl ⊢; exact ih hl

theorem lookupH_none_of_append {h l : History} {u : Str}
    (hl : lookupH (h ++ l) u = none) : lookupH h u = none := by
  cases he : lookupH h u with
  | none => rfl
  | some d => rw [lookupH_append_of_some he l] at hl; exact absurd hl (by simp)

theorem lookupH_append_self {h : History} {u : Str} (hl : lookupH h u = none)
    (v : Int) : lookupH (h ++ [(u, v)]) u = some v := by
  induction h with
  | nil => simp [lookupH]
  | cons p rest ih =>
    obtain ⟨k, w⟩ := p
    by_cases hk : k = u
    · simp [lookupH, hk] at hl
    · simp [lookupH, hk] at hl ⊢; exact ih hl

theorem mem_of_lookupH {h : History} {u : Str} {d : Int}
    (hl : lookupH h u = some d) : (u, d) ∈ h := by
  induction h with
  | nil => simp [lookupH] at hl
  | cons p rest ih =>
    obtain ⟨k, v⟩ := p
    by_cases hk : k = u
    · simp [lookupH, hk] at hl
      exact hl ▸ (by simp [hk])
    · simp [lookupH, hk] at hl
      exact List.mem_cons_of_mem _ (ih hl)

theorem mem_append_entry {h : History} (u : Str) (v : Int) {p : Str × Int}
    (hp : p ∈ h) : p ∈ h ++ [(u, v)] := List.mem_append_left _ hp

/-- Membership in the purged store: exactly the old entries at or after the
cutoff survive the sweep. -/
theorem mem_purgeExpired {h : History} {c : Int} {p : Str × Int} :
    p ∈ purgeExpired h c ↔ p ∈ h ∧ c ≤ p.2 := by
  simp [purgeExpired, List.mem_filter]

/-! ## Lemmas about the retention loop -/

theorem retentionLoop_lookup_some {c n : Int} {u : Str} {d : Int} :
    ∀ (items : List PlaylistItem) (h : History), lookupH h u = some d →
      lookupH (retentionLoop c n h items).1 u = some d := by
  intro items
  induction items with
  | nil => intro h hl; simpa [retentionLoop] using hl
  | cons x rest ih =>
    intro h hl
    by_cases hm : isManualUri x.spotify_uri = true
    · simp only [retentionLoop, if_pos hm]
      exact ih h hl
    · cases hx : lookupH h x.spotify_uri with
      | none =>
        simp only [retentionLoop, if_neg hm, hx]
        exact ih _ (lookupH_append_of_some hl _)
      | some d0 =>
        simp only [retentionLoop, if_neg hm, hx]
        exact ih _ hl

theorem retentionLoop_mem_hist_of_mem {c n : Int} {p : Str × Int} :
    ∀ (items : List PlaylistItem) (h : History), p ∈ h →
      p ∈ (retentionLoop c n h items).1 := by
  intro items
  induction items with
  | nil => intro h hp; simpa [retentionLoop] using hp
  | cons x rest ih =>
    intro h hp
    by_cases hm : isManualUri x.spotify_uri = true
    · simp only [retentionLoop, if_pos hm]
      exact ih h hp
    · cases hx : lookupH h x.spotify_uri with
      | none =>
        simp only [retentionLoop, if_neg hm, hx]
        exact ih _ (mem_append_entry _ _ hp)
      | some d0 =>
        simp only [retentionLoop, if_neg hm, hx]
        exact ih _ hp

/-- Where final store entries come from: either they were already present, or
they were freshly written at `n` for a non-placeholder incoming item whose
URI was absent. -/
theorem retentionLoop_mem_hist {c n : Int} {p : Str × Int} :
    ∀ (items : List PlaylistItem) (h : History),
      p ∈ (retentionLoop c n h items).1 →
      p ∈ h ∨ (p.2 = n ∧ lookupH h p.1 = none ∧
        ∃ i ∈ items, i.spotify_uri = p.1 ∧ isManualUri i.spotify_uri = false) := by
  intro items
  induction items with
  | nil => intro h hp; exact Or.inl (by simpa [retentionLoop] using hp)
  | cons x rest ih =>
    intro h hp
    by_cases hm : isManualUri x.spotify_uri = true
    · simp only [retentionLoop, if_pos hm] at hp
      rcases ih h hp with h1 | ⟨h1, h2, i, hi, he, hni⟩
      · exact Or.inl h1
      · exact Or.inr ⟨h1, h2, i, List.mem_cons_of_mem _ hi, he, hni⟩
    · cases hx : lookupH h x.spotify_uri with
      | none =>
        simp only [retentionLoop, if_neg hm, hx] at hp
        rcases ih _ hp with h1 | ⟨h1, h2, i, hi, he, hni⟩
        · rcases List.mem_append.mp h1 with h2 | h2
          · exact Or.inl h2
          · have hpe : p = (x.spotify_uri, n) := by simpa using h2
            refine Or.inr ⟨by simp [hpe], by rw [hpe]; exact hx, x, List.mem_cons_self _ _,
              by simp [hpe], by simpa using hm⟩
        · refine Or.inr ⟨h1, lookupH_none_of_append h2, i,
            List.mem_cons_of_mem _ hi, he, hni⟩
      | some d0 =>
        simp only [retentionLoop, if_neg hm, hx] at hp
        rcases ih _ hp with h1 | ⟨h1, h2, i, hi, he, hni⟩
        · exact Or.inl h1
        · exact Or.inr ⟨h1, h2, i, List.mem_cons_of_mem _ hi, he, hni⟩

/-- Manual-search placeholders pass through the loop unchanged. -/
theorem retentionLoop_manual_pass {c n : Int} {i : PlaylistItem}
    (hm : isManualUri i.spotify_uri = true) :
    ∀ (items : List PlaylistItem) (h : History), i ∈ items →
      i ∈ (retentionLoop c n h items).2 := by
  intro items
  induction items with
  | nil => intro h hi; simp at hi
  | cons x rest ih =>
    intro h hi
    rcases List.mem_cons.mp hi with he | hi'
    · subst he
      simp only [retentionLoop, if_pos hm]
      exact List.mem_cons_self _ _
    · by_cases hx : isManualUri x.spotify_uri = true
      · simp only [retentionLoop, if_pos hx]
        exact List.mem_cons_of_mem _ (ih h hi')
      · cases hl : lookupH h x.spotify_uri with
        | none =>
          simp only [retentionLoop, if_neg hx, hl]
          split
          · exact List.mem_cons_of_mem _ (ih _ hi')
          · exact ih _ hi'
        | some d0 =>
          simp only [retentionLoop, if_neg hx, hl]
          split
          · exact List.mem_cons_of_mem _ (ih _ hi')
          · exact ih _ hi'

/-- If a non-placeholder URI is recorded with an expired timestamp, no item
with that URI survives the loop. -/
theorem retentionLoop_drop {c n : Int} {u : Str} {D : Int}
    (hc : ¬ c ≤ D) (hu : isManualUri u = false) :
    ∀ (items : List PlaylistItem) (h : History), lookupH h u = some D →
      ∀ j ∈ (retentionLoop c n h items).2, j.spotify_uri ≠ u := by
  intro items
  induction items with
  | nil => intro h _ j hj; simp [retentionLoop] at hj
  | cons x rest ih =>
    intro h hl j hj
    by_cases hx : isManualUri x.spotify_uri = true
    · simp only [retentionLoop, if_pos hx] at hj
      rcases List.mem_cons.mp hj with he | hj'
      · subst he
        intro hju
        rw [hju] at hx
        rw [hu] at hx
        exact Bool.false_ne_true hx
      · exact ih h hl j hj'
    · by_cases hxu : x.spotify_uri = u
      · have hlx : lookupH h x.spotify_uri = some D := by rw [hxu]; exact hl
        simp only [retentionLoop, if_neg hx, hlx, Option.getD_some, if_neg hc] at hj
        exact ih h hl j hj
      · cases hlx : lookupH h x.spotify_uri with
        | none =>
          have hl1 : lookupH (h ++ [(x.spotify_uri, n)]) u = some D :=
            lookupH_append_of_some hl _
          simp only [retentionLoop, if_neg hx, hlx] at hj
          revert hj; split
          · intro hj
            rcases List.mem_cons.mp hj with he | hj'
            · subst he; exact hxu
            · exact ih _ hl1 j hj'
          · intro hj; exact ih _ hl1 j hj
        | some d0 =>
          simp only [retentionLoop, if_neg hx, hlx] at hj
          revert hj; split
          · intro hj
            rcases List.mem_cons.mp hj with he | hj'
            · subst he; exact hxu
            · exact ih _ hl j hj'
          · intro hj; exact ih _ hl j hj

/-- Per-item outcome of the loop: a non-placeholder incoming item has a
recorded first-seen timestamp `D` in the final store (written as `n` if it
was absent), is kept with its week counter set when `c ≤ D`, and is dropped
along with every other item of its URI when `c > D`. -/
theorem retentionLoop_item_spec {c n : Int} {i : PlaylistItem}
    (hni : isManualUri i.spotify_uri = false) :
    ∀ (items : List PlaylistItem) (h : History), i ∈ items →
      ∃ D, lookupH (retentionLoop c n h items).1 i.spotify_uri = some D ∧
        (c ≤ D →
          { i with weeks_in_playlist := weeksIn n D } ∈ (retentionLoop c n h items).2) ∧
        (¬ c ≤ D → ∀ j ∈ (retentionLoop c n h items).2, j.spotify_uri ≠ i.spotify_uri) := by
  intro items
  induction items with
  | nil => intro h hi; simp at hi
  | cons x rest ih =>
    intro h hi
    rcases List.mem_cons.mp hi with he | hi'
    · subst he
      have hx : ¬ isManualUri i.spotify_uri = true := by simp [hni]
      cases hl : lookupH h i.spotify_uri with
      | none =>
        have hl1 : lookupH (h ++ [(i.spotify_uri, n)]) i.spotify_uri = some n :=
          lookupH_append_self hl n
        refine ⟨n, ?_, ?_, ?_⟩
        · simp only [retentionLoop, if_neg hx, hl]
          exact retentionLoop_lookup_some rest _ hl1
        · intro hc
          simp only [retentionLoop, if_neg hx, hl, hl1, Option.getD_some, if_pos hc]
          exact List.mem_cons_self _ _
        · intro hc
          simp only [retentionLoop, if_neg hx, hl, hl1, Option.getD_some, if_neg hc]
          exact retentionLoop_drop hc hni rest _ hl1
      | some D =>
        refine ⟨D, ?_, ?_, ?_⟩
        · simp only [retentionLoop, if_neg hx, hl]
          exact retentionLoop_lookup_some rest _ hl
        · intro hc
          simp only [retentionLoop, if_neg hx, hl, Option.getD_some, if_pos hc]
          exact List.mem_cons_self _ _
        · intro hc
          simp only [retentionLoop, if_neg hx, hl, Option.getD_some, if_neg hc]
          exact retentionLoop_drop hc hni rest _ hl
    · by_cases hx : isManualUri x.spotify_uri = true
      · obtain ⟨D, hD, hkeep, hdrop⟩ := ih h hi'
        refine ⟨D, ?_, ?_, ?_⟩
        · simpa only [retentionLoop, if_pos hx] using hD
        · intro hc
          simp only [retentionLoop, if_pos hx]
          exact List.mem_cons_of_mem _ (hkeep hc)
        · intro hc
          simp only [retentionLoop, if_pos hx]
          intro j hj
          rcases List.mem_cons.mp hj with he | hj'
          · subst he
            intro hju
            rw [hju] at hx
            rw [hni] at hx
            exact Bool.false_ne_true hx
          · exact hdrop hc j hj'
      · cases hl : lookupH h x.spotify_uri with
        | none =>
          obtain ⟨D, hD, hkeep, hdrop⟩ := ih (h ++ [(x.spotify_uri, n)]) hi'
          refine ⟨D, ?_, ?_, ?_⟩
          · simpa only [retentionLoop, if_neg hx, hl] using hD
          · intro hc
            simp only [retentionLoop, if_neg hx, hl]
            split
            · exact List.mem_cons_of_mem _ (hkeep hc)
            · exact hkeep hc
          · intro hc
            have hsl : lookupH (h ++ [(x.spotify_uri, n)]) x.spotify_uri = some n :=
              lookupH_append_self hl n
            simp only [retentionLoop, if_neg hx, hl, hsl, Option.getD_some]
            by_cases hck : c ≤ n
            · rw [if_pos hck]
              intro j hj
              rcases List.mem_cons.mp hj with he | hj'
              · subst he
                simp only
                intro hju
                have hfin : lookupH (retentionLoop c n (h ++ [(x.spotify_uri, n)]) rest).1
                    x.spotify_uri = some n := retentionLoop_lookup_some rest _ hsl
                rw [← hju] at hD
                rw [hD] at hfin
                have hDn : D = n := by injection hfin
                exact hc (hDn ▸ hck)
              · exact hdrop hc j hj'
            · rw [if_neg hck]
              exact hdrop hc
        | some d0 =>
          obtain ⟨D, hD, hkeep, hdrop⟩ := ih h hi'
          refine ⟨D, ?_, ?_, ?_⟩
          · simpa only [retentionLoop, if_neg hx, hl] using hD
          · intro hc
            simp only [retentionLoop, if_neg hx, hl]
            split
            · exact List.mem_cons_of_mem _ (hkeep hc)
            · exact hkeep hc
          · intro hc
            simp only [retentionLoop, if_neg hx, hl, Option.getD_some]
            by_cases hck : c ≤ d0
            · rw [if_pos hck]
              intro j hj
              rcases List.mem_cons.mp hj with he | hj'
              · subst he
                simp only
                intro hju
                have hfin : lookupH (retentionLoop c n h rest).1 x.spotify_uri = some d0 :=
                  retentionLoop_lookup_some rest h hl
                rw [← hju] at hD
                rw [hD] at hfin
                have hDd : D = d0 := by injection hfin
                exact hc (hDd ▸ hck)
              · exact hdrop hc j hj'
            · rw [if_neg hck]
              exact hdrop hc

/-! ## Shared consequences for the retention claims -/

/-- After a retention call the store holds no entry older than the window. -/
theorem store_no_expired (h : History) (now : Int) (items : List PlaylistItem) :
    ∀ u d, (u, d) ∈ (apply_retention h now items).1 → now - d ≤ retentionSeconds := by
  intro u d hmem
  rcases retentionLoop_mem_hist items _ hmem with h1 | ⟨h1, _, _⟩
  · have h2 := (mem_purgeExpired.mp h1).2
    simp only at h2
    omega
  · simp only at h1
    have hw : retentionSeconds = 1209600 := by norm_num [retentionSeconds, RETENTION_WEEKS]
    omega

/-- A retention call never introduces a manual-placeholder key into a store
that had none. -/
theorem apply_retention_no_manual (h : History) (now : Int)
    (items : List PlaylistItem) (hph : ∀ p ∈ h, isManualUri p.1 = false) :
    ∀ p ∈ (apply_retention h now items).1, isManualUri p.1 = false := by
  intro p hp
  rcases retentionLoop_mem_hist items _ hp with h1 | ⟨_, _, i, _, he, hni⟩
  · exact hph p (mem_purgeExpired.mp h1).1
  · rw [he] at hni
    exact hni

/-! ## Claim theorems: retention (C2, C3, C4, C5) -/

/-- C2: a non-placeholder incoming item, with first-seen timestamp `D`
recorded in the store (freshly recorded as `now` when absent), is kept with
`weeks_in_playlist = (now - D).days // 7` when its age is at most the
retention window (inclusive boundary, 14 days), and is dropped from the
output when the age strictly exceeds the window; in that case no entry of
that age survives in the store either (the expiry sweep removed it). -/
theorem claim_C2 (h : History) (now : Int) (items : List PlaylistItem)
    (i : PlaylistItem) (hmem : i ∈ items)
    (hni : isManualUri i.spotify_uri = false) :
    ∃ D, lookupH (apply_retention h now items).1 i.spotify_uri = some D ∧
      (now - D ≤ retentionSeconds →
        { i with weeks_in_playlist := weeksIn now D } ∈
          (apply_retention h now items).2) ∧
      (retentionSeconds < now - D →
        ∀ j ∈ (apply_retention h now items).2, j.spotify_uri ≠ i.spotify_uri) ∧
      (∀ u d, (u, d) ∈ (apply_retention h now items).1 →
        now - d ≤ retentionSeconds) := by
  obtain ⟨D, hD, hkeep, hdrop⟩ :=
    retentionLoop_item_spec hni items (purgeExpired h (now - retentionSeconds)) hmem
  exact ⟨D, hD, fun hc => hkeep (by omega), fun hc => hdrop (by omega),
    store_no_expired h now items⟩

/-- Witness for C2 at the inclusive boundary: with `wHist` recording first
sight at 0 and `wNow` exactly 14 days later, the item is kept with
`weeks_in_playlist = 2`. -/
theorem claim_C2_witness :
    { wItem with weeks_in_playlist := 2 } ∈ (apply_retention wHist wNow [wItem]).2 := by
  obtain ⟨D, hD, hkeep, _, _⟩ :=
    claim_C2 wHist wNow [wItem] wItem (by decide) (by decide)
  have hDv : lookupH (apply_retention wHist wNow [wItem]).1 wItem.spotify_uri =
      some 0 := by decide
  rw [hDv] at hD
  have hD0 : (0 : Int) = D := by injection hD
  rw [← hD0] at hkeep
  have hk := hkeep (by decide)
  rw [show weeksIn wNow 0 = (2 : Int) from by decide] at hk
  exact hk

/-- C3 fails on the code: an entry that expired is first purged by the sweep
and then, when its URI is re-sighted in the same call, re-recorded at `now` —
so the stored timestamp of an identifier already present in the map IS
changed by re-sighting.  Concretely: first seen at 0, re-sighted at
`now = 1296000` (15 days), the stored timestamp becomes 1296000. -/
theorem claim_C3_counterexample :
    lookupH wHist wUri = some 0 ∧
    (∃ i, i ∈ [wItem] ∧ i.spotify_uri = wUri) ∧
    lookupH (apply_retention wHist 1296000 [wItem]).1 wUri = some 1296000 ∧
    lookupH (apply_retention wHist 1296000 [wItem]).1 wUri ≠ some 0 := by
  refine ⟨by decide, ⟨wItem, by decide, by decide⟩, by decide, by decide⟩

/-- C3 (amended): an entry that survives the expiry sweep (i.e. is within the
window) keeps its stored timestamp unchanged through the call, re-sighted or
not; a timestamp is written only for identifiers absent from the post-sweep
map — new ones, or ones whose expired entry the sweep just removed, both
recorded at `now`. -/
theorem claim_C3_amended (h : History) (now : Int) (items : List PlaylistItem) :
    (∀ u d, lookupH (purgeExpired h (now - retentionSeconds)) u = some d →
       lookupH (apply_retention h now items).1 u = some d) ∧
    (∀ u d, (u, d) ∈ (apply_retention h now items).1 →
       (u, d) ∈ purgeExpired h (now - retentionSeconds) ∨
         (d = now ∧ lookupH (purgeExpired h (now - retentionSeconds)) u = none)) := by
  constructor
  · intro u d hl
    exact retentionLoop_lookup_some items _ hl
  · intro u d hmem
    rcases retentionLoop_mem_hist items _ hmem with h1 | ⟨h1, h2, _⟩
    · exact Or.inl h1
    · exact Or.inr ⟨h1, h2⟩

/-- Witness for the amended C3: a within-window entry (age 600000 s) is
re-sighted and its stored timestamp survives unchanged. -/
theorem claim_C3_witness :
    lookupH (apply_retention [(wUri, 600000)] wNow [wItem]).1 wUri = some 600000 :=
  (claim_C3_amended [(wUri, 600000)] wNow [wItem]).1 wUri 600000 (by decide)

/-- C4: the call purges every persisted entry strictly older than
`now - retentionWindow`, whether or not its identifier occurs among the
incoming items, and afterwards the store holds no expired entry at all. -/
theorem claim_C4 (h : History) (now : Int) (items : List PlaylistItem) :
    (∀ u d, (u, d) ∈ h → d < now - retentionSeconds →
       (u, d) ∉ (apply_retention h now items).1) ∧
    (∀ u d, (u, d) ∈ (apply_retention h now items).1 →
       now - d ≤ retentionSeconds) := by
  constructor
  · intro u d _ hd hmem
    have := store_no_expired h now items u d hmem
    omega
  · exact store_no_expired h now items

/-- Witness for C4: an entry 15 days old is gone after a call whose items do
not mention it at all. -/
theorem claim_C4_witness :
    (wUri, (0 : Int)) ∈ wHist ∧ (wUri, (0 : Int)) ∉ (apply_retention wHist 1296000 []).1 :=
  ⟨by decide, (claim_C4 wHist 1296000 []).1 wUri 0 (by decide) (by decide)⟩

/-- C5: a manual-search placeholder item (URI prefixed `spotify:search:`)
always passes through to the output, is never recorded in the store (a store
entry with a placeholder key can only have been there before the call), and
a store with no placeholder keys never acquires one over any sequence of
retention calls. -/
theorem claim_C5 (h : History) (now : Int) (items : List PlaylistItem)
    (calls : List (Int × List PlaylistItem)) :
    (∀ i ∈ items, isManualUri i.spotify_uri = true →
       i ∈ (apply_retention h now items).2) ∧
    (∀ u d, (u, d) ∈ (apply_retention h now items).1 → isManualUri u = true →
       (u, d) ∈ h) ∧
    ((∀ p ∈ h, isManualUri p.1 = false) →
       ∀ p ∈ runRetentionCalls h calls, isManualUri p.1 = false) := by
  refine ⟨?_, ?_, ?_⟩
  · intro i hi hm
    exact retentionLoop_manual_pass hm items _ hi
  · intro u d hmem hm
    rcases retentionLoop_mem_hist items _ hmem with h1 | ⟨_, _, i, _, he, hni⟩
    · exact (mem_purgeExpired.mp h1).1
    · rw [he] at hni
      rw [hni] at hm
      exact absurd hm (by simp)
  · intro hph
    induction calls generalizing h with
    | nil => simpa [runRetentionCalls] using hph
    | cons cfirst crest ih =>
      have hstep := apply_retention_no_manual h cfirst.1 cfirst.2 hph
      simpa [runRetentionCalls] using ih _ hstep

/-- Witness for C5: the concrete placeholder item is passed through. -/
theorem claim_C5_witness : wMan ∈ (apply_retention [] 100 [wMan]).2 :=
  (claim_C5 [] 100 [wMan] []).1 wMan (by decide) (by decide)

/-! ## Claim theorems: genre filter (C8) and the fallback (C10) -/

/-- C8 as stated is false on the code: the claim requires trimmed matching,
but the source only lowercases.  With exclude entry `"edm "` (trailing
space) and tag `"a edm"`, trimmed matching rejects (`"edm"` is a substring
of `"a edm"`), while the code finds no substring match in either direction
and accepts. -/
theorem claim_C8_counterexample :
    specAdmit wRel.genres [] ["edm ".data] = false ∧
    should_include (GenreFilter.init [] ["edm ".data]) wRel = true := by
  constructor
  · decide
  · decide

/-- C8 (amended): the admission decision is computed with case-insensitive
substring-in-either-direction matching (no trimming), in exactly the
claimed first-match-wins order — reject on exclude match, else accept on
empty tags, else accept on include match, else reject when at least 3 tags,
else accept — and is a pure function of (tags, include, exclude). -/
theorem isEmpty_map {α β : Type} (f : α → β) (l : List α) :
    (l.map f).isEmpty = l.isEmpty := by
  cases l <;> rfl

theorem claim_C8_amended (include_genres exclude_genres : List Str)
    (r : ScrapedRelease) :
    should_include (GenreFilter.init include_genres exclude_genres) r =
      specAdmitNoTrim r.genres include_genres exclude_genres := by
  simp only [should_include, specAdmitNoTrim, GenreFilter.init, List.any_map,
    Function.comp_def, List.length_map, isEmpty_map]

/-- C10: when the genre filter admits nothing from a non-empty scrape, the
pipeline discards the filter's verdict and continues with the whole
unfiltered release list, so every scraped release — excluded genres
included — reaches the next phase. -/
theorem claim_C10 (f : GenreFilter) (all_releases : List ScrapedRelease)
    (hne : all_releases ≠ []) (hemp : f.run all_releases = []) :
    effectiveReleases f all_releases = all_releases ∧
    ∀ r ∈ all_releases, r ∈ effectiveReleases f all_releases := by
  have he : effectiveReleases f all_releases = all_releases := by
    simp [effectiveReleases, hemp]
  exact ⟨he, fun r hr => by rw [he]; exact hr⟩

/-- Witness for C10: the lone scraped release is excluded by genre, the
filter output is empty, and the excluded release still reaches the output
list. -/
theorem claim_C10_witness :
    [wEdmRel] ≠ ([] : List ScrapedRelease) ∧
    (GenreFilter.init ["punk".data] ["edm".data]).run [wEdmRel] = [] ∧
    effectiveReleases (GenreFilter.init ["punk".data] ["edm".data]) [wEdmRel] =
      [wEdmRel] :=
  ⟨by decide, by decide,
    (claim_C10 (GenreFilter.init ["punk".data] ["edm".data]) [wEdmRel]
      (by decide) (by decide)).1⟩

/-! ## Claim theorems: trimming (C1) -/

/-- C1: for `N > 0`, trimming returns `current` unchanged when it fits;
otherwise it returns the priority items of `current` followed by the first
`N - |priorityInCurrent|` non-priority items when that difference is
positive, and the first `N` priority items otherwise.  The result never
exceeds `N` elements, and every element of `current` whose URI is in the
priority list survives whenever there are at most `N` such elements. -/
theorem claim_C1 (current priority : List PlaylistItem) (N : Nat) (hN : 0 < N) :
    (current.length ≤ N → trim current priority N = current) ∧
    (N < current.length →
      ((priorityInCurrent current priority).length < N →
        trim current priority N =
          priorityInCurrent current priority ++
            (othersInCurrent current priority).take
              (N - (priorityInCurrent current priority).length)) ∧
      (N ≤ (priorityInCurrent current priority).length →
        trim current priority N = (priorityInCurrent current priority).take N)) ∧
    (trim current priority N).length ≤ N ∧
    ((priorityInCurrent current priority).length ≤ N →
      ∀ i ∈ current, i.spotify_uri ∈ priorityUris priority →
        i ∈ trim current priority N) := by
  by_cases hfit : current.length ≤ N
  · refine ⟨fun _ => by simp [trim, hfit], fun hlt => absurd hfit (by omega), ?_, ?_⟩
    · simp only [trim, if_pos hfit]
      exact hfit
    · intro _ i hi _
      simp only [trim, if_pos hfit]
      exact hi
  · have hgt : N < current.length := by omega
    have hsplit :
        ((priorityInCurrent current priority).length < N →
          trim current priority N =
            priorityInCurrent current priority ++
              (othersInCurrent current priority).take
                (N - (priorityInCurrent current priority).length)) ∧
        (N ≤ (priorityInCurrent current priority).length →
          trim current priority N = (priorityInCurrent current priority).take N) := by
      constructor
      · intro hlt
        have hs : (0 : Int) <
            (N : Int) - (priorityInCurrent current priority).length := by omega
        have ht : ((N : Int) - (priorityInCurrent current priority).length).toNat =
            N - (priorityInCurrent current priority).length := by omega
        simp only [trim, if_neg hfit, if_pos hs, ht]
      · intro hge
        have hs : ¬ (0 : Int) <
            (N : Int) - (priorityInCurrent current priority).length := by omega
        simp only [trim, if_neg hfit, if_neg hs]
    refine ⟨fun h => absurd h hfit, fun _ => hsplit, ?_, ?_⟩
    · by_cases hlt : (priorityInCurrent current priority).length < N
      · rw [hsplit.1 hlt]
        have h1 := List.length_take_le
          (N - (priorityInCurrent current priority).length)
          (othersInCurrent current priority)
        simp only [List.length_append]
        omega
      · rw [hsplit.2 (by omega)]
        exact List.length_take_le N _
    · intro hle i hi hu
      have hpc : i ∈ priorityInCurrent current priority :=
        List.mem_filter.mpr ⟨hi, by simpa using hu⟩
      by_cases hlt : (priorityInCurrent current priority).length < N
      · rw [hsplit.1 hlt]
        exact List.mem_append_left _ hpc
      · have heq : (priorityInCurrent current priority).length = N := by omega
        rw [hsplit.2 (by omega), ← heq, List.take_length]
        exact hpc

/-- Witness for C1: three current items, one priority item, target 2 — the
result stays within the target and keeps the priority item. -/
theorem claim_C1_witness :
    (trim [wI1, wI2, wI3] [wI3] 2).length ≤ 2 ∧
    wI3 ∈ trim [wI1, wI2, wI3] [wI3] 2 :=
  ⟨(claim_C1 [wI1, wI2, wI3] [wI3] 2 (by decide)).2.2.1,
    (claim_C1 [wI1, wI2, wI3] [wI3] 2 (by decide)).2.2.2 (by decide) wI3
      (by decide) (by decide)⟩

/-! ## Generic lemmas: insertion-ordered keys and key blocks -/

theorem keyOrderBy_foldl_mem {α κ : Type} [DecidableEq κ] (key : α → κ) :
    ∀ (l : List α) (acc : List κ) (y : κ),
      (y ∈ l.foldl (fun acc x => if key x ∈ acc then acc else acc ++ [key x]) acc ↔
        y ∈ acc ∨ ∃ a ∈ l, key a = y) := by
  intro l
  induction l with
  | nil => intro acc y; simp
  | cons x xs ih =>
    intro acc y
    simp only [List.foldl_cons]
    by_cases hx : key x ∈ acc
    · rw [if_pos hx, ih]
      constructor
      · rintro (h | ⟨a, ha, hk⟩)
        · exact Or.inl h
        · exact Or.inr ⟨a, List.mem_cons_of_mem _ ha, hk⟩
      · rintro (h | ⟨a, ha, hk⟩)
        · exact Or.inl h
        · rcases List.mem_cons.mp ha with he | ha'
          · subst he
            exact Or.inl (hk ▸ hx)
          · exact Or.inr ⟨a, ha', hk⟩
    · rw [if_neg hx, ih]
      constructor
      · rintro (h | ⟨a, ha, hk⟩)
        · rcases List.mem_append.mp h with h' | h'
          · exact Or.inl h'
          · have : y = key x := by simpa using h'
            exact Or.inr ⟨x, List.mem_cons_self _ _, this.symm⟩
        · exact Or.inr ⟨a, List.mem_cons_of_mem _ ha, hk⟩
      · rintro (h | ⟨a, ha, hk⟩)
        · exact Or.inl (List.mem_append_left _ h)
        · rcases List.mem_cons.mp ha with he | ha'
          · subst he
            exact Or.inl (List.mem_append_right _ (by simp [hk]))
          · exact Or.inr ⟨a, ha', hk⟩

theorem mem_keyOrderBy {α κ : Type} [DecidableEq κ] (key : α → κ)
    (l : List α) (y : κ) :
    y ∈ keyOrderBy key l ↔ ∃ a ∈ l, key a = y := by
  rw [keyOrderBy, keyOrderBy_foldl_mem]
  simp

theorem keyOrderBy_foldl_nodup {α κ : Type} [DecidableEq κ] (key : α → κ) :
    ∀ (l : List α) (acc : List κ), acc.Nodup →
      (l.foldl (fun acc x => if key x ∈ acc then acc else acc ++ [key x]) acc).Nodup := by
  intro l
  induction l with
  | nil => intro acc h; simpa
  | cons x xs ih =>
    intro acc h
    simp only [List.foldl_cons]
    by_cases hx : key x ∈ acc
    · rw [if_pos hx]; exact ih _ h
    · rw [if_neg hx]
      refine ih _ ?_
      rw [List.nodup_append]
      refine ⟨h, List.nodup_singleton _, ?_⟩
      intro a ha hb
      have : a = key x := by simpa using hb
      exact hx (this ▸ ha)

theorem keyOrderBy_nodup {α κ : Type} [DecidableEq κ] (key : α → κ)
    (l : List α) : (keyOrderBy key l).Nodup :=
  keyOrderBy_foldl_nodup key l [] List.nodup_nil

theorem mem_blocksBy_key {α κ : Type} [DecidableEq κ] (key : α → κ)
    {ks : List κ} {l : List α} {x : α} (hx : x ∈ blocksBy key ks l) :
    x ∈ l ∧ key x ∈ ks := by
  rw [blocksBy, List.mem_flatMap] at hx
  obtain ⟨k, hk, hmem⟩ := hx
  have h2 := List.mem_filter.mp hmem
  have h3 : key x = k := by simpa using h2.2
  exact ⟨h2.1, h3 ▸ hk⟩

theorem blocksBy_cons {α κ : Type} [DecidableEq κ] (key : α → κ)
    (k : κ) (t : List κ) (l : List α) :
    blocksBy key (k :: t) l =
      l.filter (fun a => decide (key a = k)) ++ blocksBy key t l := by
  simp only [blocksBy, List.flatMap_cons]

theorem blocksBy_perm {α κ : Type} [DecidableEq κ] (key : α → κ) :
    ∀ (ks : List κ) (l : List α), ks.Nodup → (∀ a ∈ l, key a ∈ ks) →
      (blocksBy key ks l).Perm l := by
  intro ks
  induction ks with
  | nil =>
    intro l _ hcov
    have hl : l = [] := List.eq_nil_iff_forall_not_mem.mpr
      (fun a ha => by simpa using hcov a ha)
    simp [blocksBy, hl]
  | cons k t ih =>
    intro l hnd hcov
    have hkt : k ∉ t := (List.nodup_cons.mp hnd).1
    have hndt : t.Nodup := (List.nodup_cons.mp hnd).2
    have hstep : blocksBy key t l =
        blocksBy key t (l.filter (fun a => ! decide (key a = k))) := by
      simp only [blocksBy, List.flatMap_def]
      refine congrArg List.flatten (List.map_congr_left ?_)
      intro k' hk'
      rw [List.filter_filter]
      refine (List.filter_congr ?_).symm
      intro a _
      by_cases hak : key a = k'
      · have hne : k' ≠ k := fun hc => hkt (hc ▸ hk')
        have hne2 : ¬ key a = k := fun hc => hne (hak.symm.trans hc)
        simp [hak, hne2, hne]
      · simp [hak]
    have hcov2 : ∀ a ∈ l.filter (fun a => ! decide (key a = k)), key a ∈ t := by
      intro a ha
      have h1 := List.mem_filter.mp ha
      have h2 : key a ≠ k := by simpa using h1.2
      rcases List.mem_cons.mp (hcov a h1.1) with he | ht
      · exact absurd he h2
      · exact ht
    have hperm2 := ih (l.filter (fun a => ! decide (key a = k))) hndt hcov2
    rw [blocksBy_cons, hstep]
    exact (List.Perm.append (List.Perm.refl _) hperm2).trans
      (List.filter_append_perm _ l)

theorem blocksBy_filter_of_mem {α κ : Type} [DecidableEq κ] (key : α → κ)
    {k : κ} : ∀ (ks : List κ) (l : List α), k ∈ ks → ks.Nodup →
      (blocksBy key ks l).filter (fun a => decide (key a = k)) =
        l.filter (fun a => decide (key a = k)) := by
  intro ks
  induction ks with
  | nil => intro l hk; exact absurd hk (by simp)
  | cons k' t ih =>
    intro l hk hnd
    have hndt : t.Nodup := (List.nodup_cons.mp hnd).2
    have hk't : k' ∉ t := (List.nodup_cons.mp hnd).1
    rw [blocksBy_cons, List.filter_append]
    rcases List.mem_cons.mp hk with he | ht
    · subst he
      have h1 : (l.filter (fun a => decide (key a = k))).filter
          (fun a => decide (key a = k)) = l.filter (fun a => decide (key a = k)) := by
        rw [List.filter_filter]
        exact List.filter_congr (fun a _ => by by_cases h : key a = k <;> simp [h])
      have h2 : (blocksBy key t l).filter (fun a => decide (key a = k)) = [] := by
        rw [List.eq_nil_iff_forall_not_mem]
        intro x hx
        have h3 := List.mem_filter.mp hx
        have h4 := (mem_blocksBy_key key h3.1).2
        have h5 : key x = k := by simpa using h3.2
        exact hk't (h5 ▸ h4)
      rw [h1, h2, List.append_nil]
    · have hkk' : ¬ k = k' := fun hc => hk't (hc ▸ ht)
      have h1 : (l.filter (fun a => decide (key a = k'))).filter
          (fun a => decide (key a = k)) = [] := by
        rw [List.eq_nil_iff_forall_not_mem]
        intro x hx
        have h2 := List.mem_filter.mp hx
        have h3 : key x = k' := by simpa using (List.mem_filter.mp h2.1).2
        have h4 : key x = k := by simpa using h2.2
        exact hkk' (h4.symm.trans h3)
      rw [h1, List.nil_append]
      exact ih l ht hndt

theorem blocksBy_filter_of_not_mem {α κ : Type} [DecidableEq κ] (key : α → κ)
    {k : κ} (ks : List κ) (l : List α) (hk : k ∉ ks) :
    (blocksBy key ks l).filter (fun a => decide (key a = k)) = [] := by
  rw [List.eq_nil_iff_forall_not_mem]
  intro x hx
  have h1 := List.mem_filter.mp hx
  have h2 := (mem_blocksBy_key key h1.1).2
  have h3 : key x = k := by simpa using h1.2
  exact hk (h3 ▸ h2)

theorem blocksBy_append {α κ : Type} [DecidableEq κ] (key : α → κ)
    (s t : List κ) (l : List α) :
    blocksBy key (s ++ t) l = blocksBy key s l ++ blocksBy key t l := by
  simp only [blocksBy, List.flatMap_append]

/-- The bucket of any key `k` is a contiguous segment of the concatenation;
everything before and after it has a different key. -/
theorem blocksBy_contig {α κ : Type} [DecidableEq κ] (key : α → κ)
    (ks : List κ) (l : List α) (k : κ) (hnd : ks.Nodup) :
    ∃ A B, blocksBy key ks l =
      A ++ (blocksBy key ks l).filter (fun a => decide (key a = k)) ++ B ∧
      (∀ x ∈ A, key x ≠ k) ∧ (∀ x ∈ B, key x ≠ k) := by
  by_cases hk : k ∈ ks
  · obtain ⟨s, t, rfl⟩ := List.append_of_mem hk
    have hns : k ∉ s := by
      intro hs
      have := List.nodup_append.mp hnd
      exact this.2.2 hs (List.mem_cons_self _ _)
    have hnt : k ∉ t := by
      have := List.nodup_append.mp hnd
      exact ((List.nodup_cons.mp this.2.1).1)
    refine ⟨blocksBy key s l, blocksBy key t l, ?_, ?_, ?_⟩
    · rw [blocksBy_filter_of_mem key (s ++ k :: t) l hk hnd]
      rw [blocksBy_append, blocksBy_cons, List.append_assoc]
    · intro x hx
      exact fun hc => hns (hc ▸ (mem_blocksBy_key key hx).2)
    · intro x hx
      exact fun hc => hnt (hc ▸ (mem_blocksBy_key key hx).2)
  · refine ⟨blocksBy key ks l, [], ?_, ?_, by simp⟩
    · rw [blocksBy_filter_of_not_mem key ks l hk]
      simp
    · intro x hx
      exact fun hc => hk (hc ▸ (mem_blocksBy_key key hx).2)

theorem keyOrderBy_foldl_all_mem {α κ : Type} [DecidableEq κ] (key : α → κ) :
    ∀ (xs : List α) (acc : List κ), (∀ x ∈ xs, key x ∈ acc) →
      xs.foldl (fun acc x => if key x ∈ acc then acc else acc ++ [key x]) acc = acc := by
  intro xs
  induction xs with
  | nil => intro acc _; rfl
  | cons x t ih =>
    intro acc hall
    simp only [List.foldl_cons, if_pos (hall x (List.mem_cons_self _ _))]
    exact ih acc (fun y hy => hall y (List.mem_cons_of_mem _ hy))

theorem keyOrderBy_foldl_block {α κ : Type} [DecidableEq κ] (key : α → κ)
    (bl : List α) (k : κ) (acc : List κ) (hne : bl ≠ [])
    (hall : ∀ x ∈ bl, key x = k) (hk : k ∉ acc) :
    bl.foldl (fun acc x => if key x ∈ acc then acc else acc ++ [key x]) acc =
      acc ++ [k] := by
  cases bl with
  | nil => exact absurd rfl hne
  | cons x t =>
    have hx : key x = k := hall x (List.mem_cons_self _ _)
    simp only [List.foldl_cons, hx, if_neg hk]
    exact keyOrderBy_foldl_all_mem key t (acc ++ [k])
      (fun y hy => by
        rw [hall y (List.mem_cons_of_mem _ hy)]
        exact List.mem_append_right _ (by simp))

theorem keyOrderBy_blocksBy_aux {α κ : Type} [DecidableEq κ] (key : α → κ) :
    ∀ (ks : List κ) (l : List α) (acc : List κ), ks.Nodup →
      (∀ k ∈ ks, l.filter (fun a => decide (key a = k)) ≠ []) →
      (∀ k ∈ ks, k ∉ acc) →
      (blocksBy key ks l).foldl
        (fun acc x => if key x ∈ acc then acc else acc ++ [key x]) acc =
        acc ++ ks := by
  intro ks
  induction ks with
  | nil => intro l acc _ _ _; simp [blocksBy]
  | cons k t ih =>
    intro l acc hnd hne hdis
    rw [blocksBy_cons, List.foldl_append]
    have hblock : (l.filter (fun a => decide (key a = k))).foldl
        (fun acc x => if key x ∈ acc then acc else acc ++ [key x]) acc =
        acc ++ [k] :=
      keyOrderBy_foldl_block key _ k acc (hne k (List.mem_cons_self _ _))
        (fun x hx => by simpa using (List.mem_filter.mp hx).2)
        (hdis k (List.mem_cons_self _ _))
    rw [hblock]
    have h1 := ih l (acc ++ [k]) (List.nodup_cons.mp hnd).2
      (fun k' hk' => hne k' (List.mem_cons_of_mem _ hk'))
      (fun k' hk' => by
        intro hk2
        rcases List.mem_append.mp hk2 with h | h
        · exact hdis k' (List.mem_cons_of_mem _ hk') h
        · have : k' = k := by simpa using h
          exact (List.nodup_cons.mp hnd).1 (this ▸ hk'))
    rw [h1, List.append_assoc]
    rfl

/-- The first-occurrence key order of the regrouped list equals `ks`. -/
theorem keyOrderBy_blocksBy {α κ : Type} [DecidableEq κ] (key : α → κ)
    (ks : List κ) (l : List α) (hnd : ks.Nodup)
    (hne : ∀ k ∈ ks, l.filter (fun a => decide (key a = k)) ≠ []) :
    keyOrderBy key (blocksBy key ks l) = ks := by
  rw [keyOrderBy]
  rw [keyOrderBy_blocksBy_aux key ks l [] hnd hne (fun k _ => by simp)]
  rfl

/-! ## Claim theorems: album regrouping (C9) -/

theorem group_by_album_eq (items : List PlaylistItem) :
    group_by_album items =
      blocksBy albumKey (keyOrderBy albumKey items) items := rfl

theorem albumKey_cover (items : List PlaylistItem) :
    ∀ i ∈ items, albumKey i ∈ keyOrderBy albumKey items := by
  intro i hi
  exact (mem_keyOrderBy albumKey items _).mpr ⟨i, hi, rfl⟩

theorem albumKey_block_ne_nil (items : List PlaylistItem) :
    ∀ k ∈ keyOrderBy albumKey items,
      items.filter (fun i => decide (albumKey i = k)) ≠ [] := by
  intro k hk
  obtain ⟨a, ha, hke⟩ := (mem_keyOrderBy albumKey items k).mp hk
  exact List.ne_nil_of_mem (List.mem_filter.mpr ⟨ha, by simp [hke]⟩)

/-- C9: `group_by_album` returns a permutation of its input in which the
items of each `(lowercased artist, lowercased album)` key form one
contiguous block, blocks appear in order of the first occurrence of their
key in the input, and inside a block the input order is preserved. -/
theorem claim_C9 (items : List PlaylistItem) :
    (group_by_album items).Perm items ∧
    (∀ k, (group_by_album items).filter (fun i => decide (albumKey i = k)) =
       items.filter (fun i => decide (albumKey i = k))) ∧
    (∀ k, ∃ A B, group_by_album items =
       A ++ (group_by_album items).filter (fun i => decide (albumKey i = k)) ++ B ∧
       (∀ x ∈ A, albumKey x ≠ k) ∧ (∀ x ∈ B, albumKey x ≠ k)) ∧
    keyOrderBy albumKey (group_by_album items) = keyOrderBy albumKey items := by
  have hnd := keyOrderBy_nodup albumKey items
  have hcov := albumKey_cover items
  refine ⟨?_, ?_, ?_, ?_⟩
  · rw [group_by_album_eq]
    exact blocksBy_perm albumKey _ items hnd hcov
  · intro k
    rw [group_by_album_eq]
    by_cases hk : k ∈ keyOrderBy albumKey items
    · exact blocksBy_filter_of_mem albumKey _ items hk hnd
    · rw [blocksBy_filter_of_not_mem albumKey _ items hk]
      symm
      rw [List.eq_nil_iff_forall_not_mem]
      intro x hx
      have h1 := List.mem_filter.mp hx
      have h2 : albumKey x = k := by simpa using h1.2
      exact hk (h2 ▸ hcov x h1.1)
  · intro k
    rw [group_by_album_eq]
    exact blocksBy_contig albumKey _ items k hnd
  · rw [group_by_album_eq]
    exact keyOrderBy_blocksBy albumKey _ items hnd (albumKey_block_ne_nil items)

/-! ## Stability of the priority sort -/

theorem orderedInsert_filter_count (x : PlaylistItem) (n : Nat) :
    ∀ l : List PlaylistItem,
      (List.orderedInsert bySourceCountDesc x l).filter
          (fun i => decide (i.sources.length = n)) =
        if x.sources.length = n then
          x :: l.filter (fun i => decide (i.sources.length = n))
        else l.filter (fun i => decide (i.sources.length = n)) := by
  intro l
  induction l with
  | nil =>
    simp only [List.orderedInsert_nil]
    by_cases hx : x.sources.length = n <;> simp [hx]
  | cons y ys ih =>
    by_cases hr : bySourceCountDesc x y
    · rw [List.orderedInsert, if_pos hr]
      by_cases hx : x.sources.length = n <;> simp [hx]
    · rw [List.orderedInsert, if_neg hr]
      have hylt : x.sources.length < y.sources.length := by
        simpa [bySourceCountDesc, Nat.not_le] using hr
      by_cases hy : y.sources.length = n
      · have hx : ¬ x.sources.length = n := by omega
        simp [hy, hx, ih]
      · by_cases hx : x.sources.length = n <;> simp [hy, hx, ih]

theorem insertionSort_filter_count (n : Nat) :
    ∀ l : List PlaylistItem,
      (List.insertionSort bySourceCountDesc l).filter
          (fun i => decide (i.sources.length = n)) =
        l.filter (fun i => decide (i.sources.length = n)) := by
  intro l
  induction l with
  | nil => rfl
  | cons x xs ih =>
    have h1 : List.insertionSort bySourceCountDesc (x :: xs) =
        List.orderedInsert bySourceCountDesc x
          (List.insertionSort bySourceCountDesc xs) := rfl
    rw [h1, orderedInsert_filter_count, ih]
    by_cases hx : x.sources.length = n <;> simp [hx]

/-! ## Claim theorems: deduplication ordering (C6) -/

theorem merge_items_uri {u : Str} :
    ∀ l : List PlaylistItem, (∀ i ∈ l, i.spotify_uri = u) → l ≠ [] →
      ∃ m, merge_items l = some m ∧ m.spotify_uri = u := by
  intro l
  match l with
  | [] => intro _ hne; exact absurd rfl hne
  | [i] =>
    intro hall _
    exact ⟨i, rfl, hall i (List.mem_cons_self _ _)⟩
  | i :: j :: t =>
    intro hall _
    refine ⟨{ i with sources := sortedSourceUnion (i :: j :: t) }, rfl, ?_⟩
    exact hall i (List.mem_cons_self _ _)

theorem filterMap_merge_map_uri (items : List PlaylistItem) :
    ∀ us : List Str, (∀ u ∈ us, uriGroup items u ≠ []) →
      (us.filterMap (fun u => merge_items (uriGroup items u))).map
        (fun i => i.spotify_uri) = us := by
  intro us
  induction us with
  | nil => intro _; rfl
  | cons u t ih =>
    intro hne
    have hall : ∀ i ∈ uriGroup items u, i.spotify_uri = u := by
      intro i hi
      simpa using (List.mem_filter.mp hi).2
    obtain ⟨m, hm, hmu⟩ := merge_items_uri (uriGroup items u) hall
      (hne u (List.mem_cons_self _ _))
    rw [List.filterMap_cons, hm]
    simp only [List.map_cons, hmu]
    rw [ih (fun v hv => hne v (List.mem_cons_of_mem _ hv))]

theorem uriGroup_ne_nil (items : List PlaylistItem) :
    ∀ u ∈ keyOrderBy (fun i => i.spotify_uri) items, uriGroup items u ≠ [] := by
  intro u hu
  obtain ⟨a, ha, hke⟩ := (mem_keyOrderBy (fun i => i.spotify_uri) items u).mp hu
  exact List.ne_nil_of_mem (List.mem_filter.mpr ⟨ha, by simp [hke]⟩)

/-- C6: the merge step is deterministically ordered — `unique` holds one
merged item per URI in first-occurrence order; `priority` holds one merged
item per URI that occurs more than once, sorted descending by the number of
distinct sources, ties resolved by first-seen group order (its per-count
slices coincide with the unsorted first-seen-ordered list). -/
theorem claim_C6 (items : List PlaylistItem) :
    ((deduplicate items).2.map (fun i => i.spotify_uri) =
       keyOrderBy (fun i => i.spotify_uri) items) ∧
    ((priorityPreSort items).map (fun i => i.spotify_uri) =
       (keyOrderBy (fun i => i.spotify_uri) items).filter
         (fun u => decide (1 < (uriGroup items u).length))) ∧
    (deduplicate items).1.Perm (priorityPreSort items) ∧
    List.Sorted bySourceCountDesc (deduplicate items).1 ∧
    (∀ n, (deduplicate items).1.filter (fun i => decide (i.sources.length = n)) =
       (priorityPreSort items).filter (fun i => decide (i.sources.length = n))) := by
  refine ⟨?_, ?_, ?_, ?_, ?_⟩
  · exact filterMap_merge_map_uri items _ (uriGroup_ne_nil items)
  · rw [priorityPreSort]
    refine filterMap_merge_map_uri items _ ?_
    intro u hu
    exact uriGroup_ne_nil items u (List.mem_of_mem_filter hu)
  · exact List.perm_insertionSort bySourceCountDesc _
  · exact List.sorted_insertionSort bySourceCountDesc _
  · intro n
    exact insertionSort_filter_count n _

/-! ## Claim theorems: source merging (C7) -/

theorem sortedSourceUnion_perm {l l' : List PlaylistItem}
    (hp : l.Perm l') : sortedSourceUnion l = sortedSourceUnion l' := by
  have h1 : (l.flatMap (fun i => i.sources)).Perm
      (l'.flatMap (fun i => i.sources)) := by
    rw [List.flatMap_def, List.flatMap_def]
    exact (hp.map _).flatten
  have h2 := h1.dedup
  have h3 : (sortedSourceUnion l).Perm (sortedSourceUnion l') := by
    rw [sortedSourceUnion, sortedSourceUnion]
    exact ((List.perm_insertionSort strLeR _).trans h2).trans
      (List.perm_insertionSort strLeR _).symm
  exact List.eq_of_perm_of_sorted h3
    (List.sorted_insertionSort strLeR _) (List.sorted_insertionSort strLeR _)

/-- The claim C7 as stated is false on the code: `_merge_items` returns a
singleton group's sole item as is, without deduplicating or sorting its
`sources` list. -/
theorem claim_C7_counterexample :
    (merge_items [wSing]).map (fun m => m.sources) = some ["b".data, "a".data] ∧
    sortedSourceUnion [wSing] = ["a".data, "b".data] ∧
    (merge_items [wSing]).map (fun m => m.sources) ≠ some (sortedSourceUnion [wSing]) := by
  refine ⟨by decide, by decide, by decide⟩

/-- C7 (amended): for a merge group with at least two members the merged
`sources` is the sorted deduplicated union of every member's own sources; a
singleton group is returned unchanged; and in every case the merged
`sources` is invariant under permutation of the group's members. -/
theorem claim_C7_amended (l l' : List PlaylistItem) (hp : l.Perm l') :
    (2 ≤ l.length →
      (merge_items l).map (fun m => m.sources) = some (sortedSourceUnion l)) ∧
    (merge_items l).map (fun m => m.sources) =
      (merge_items l').map (fun m => m.sources) := by
  constructor
  · intro h2
    match l, h2 with
    | a :: b :: t, _ => rfl
  · match l with
    | [] =>
      have : l' = [] := List.perm_nil.mp hp.symm
      rw [this]
    | [a] =>
      have : l' = [a] := List.perm_singleton.mp hp.symm
      rw [this]
    | a :: b :: t =>
      have hlen : 2 ≤ l'.length := by
        have := hp.length_eq
        simp at this
        omega
      match l', hlen with
      | a' :: b' :: t', _ =>
        show some (sortedSourceUnion (a :: b :: t)) =
          some (sortedSourceUnion (a' :: b' :: t'))
        exact congrArg some (sortedSourceUnion_perm hp)

/-- Witness for the amended C7 on a two-element group and its swap. -/
theorem claim_C7_witness :
    (merge_items [wSrcA, wSrcB]).map (fun m => m.sources) =
      some (sortedSourceUnion [wSrcA, wSrcB]) ∧
    (merge_items [wSrcA, wSrcB]).map (fun m => m.sources) =
      (merge_items [wSrcB, wSrcA]).map (fun m => m.sources) :=
  ⟨(claim_C7_amended [wSrcA, wSrcB] [wSrcB, wSrcA]
      (List.Perm.swap wSrcB wSrcA [])).1 (by decide),
    (claim_C7_amended [wSrcA, wSrcB] [wSrcB, wSrcA]
      (List.Perm.swap wSrcB wSrcA [])).2⟩
